import Mathlib

/-!
Verification of the extraction core of the tf2vpk repository's
tf2-vpkunpack command: the parent-aware glob matcher and the SI byte
formatter from src/internal/util.go, and the per-entry extraction
pipeline from src/cmd/tf2-vpkunpack/main.go.

Modeling conventions:
- Go strings are modeled as `List Char`.
- Go `int64` is modeled as `Int` with two's-complement wraparound made
  explicit exactly where the Go code can overflow (the `b *= -1` step of
  `FormatBytesSI`); Go `uint64` is `Nat` with explicit `% 2^64`.
- The Go standard-library glob primitive `path.Match` is the host
  environment's path-pattern collaborator; the code under verification
  only calls it.  It is modeled as an explicit parameter
  `pm : List Char → List Char → Except Unit Bool` (`Except.error ()`
  standing for `path.ErrBadPattern`), so every theorem about the matcher
  loop holds for the actual primitive as a special case.
- `path.Split` and `strings.TrimRight(_, "/")` are deterministic string
  operations and are modeled concretely.
- Loops are written with an explicit fuel argument that is a strict upper
  bound on the number of iterations (`matchLoopF`, `siLoopF`,
  `natDecimalAux`); the fuel is chosen so that the zero-fuel fallback is
  unreachable, keeping every definition kernel-computable.
-/

namespace Vpk

/-- Decimal digit character, as produced by Go's %d verb for one digit. -/
def digitChar : Nat → Char
  | 0 => '0'
  | 1 => '1'
  | 2 => '2'
  | 3 => '3'
  | 4 => '4'
  | 5 => '5'
  | 6 => '6'
  | 7 => '7'
  | 8 => '8'
  | 9 => '9'
  | _ => '?'

/-- Decimal rendering of a natural number, most significant digit first
(Go's %d for non-negative values).  The first argument is fuel; `n + 1`
is always sufficient. -/
def natDecimalAux : Nat → Nat → List Char → List Char
  | 0, _, acc => acc
  | fuel + 1, n, acc =>
    if n < 10 then digitChar n :: acc
    else natDecimalAux fuel (n / 10) (digitChar (n % 10) :: acc)

/-- Decimal rendering of a natural number. -/
def natDecimal (n : Nat) : List Char := natDecimalAux (n + 1) n []

/-- Decimal rendering of an integer (Go's %d for int64). -/
def intDecimal (i : Int) : List Char :=
  if i < 0 then '-' :: natDecimal (-i).toNat else natDecimal i.toNat

/-- Two's-complement wraparound of an integer into the int64 range,
making Go's silent int64 overflow explicit.  9223372036854775808 = 2^63
and 18446744073709551616 = 2^64. -/
def int64Wrap (x : Int) : Int :=
  (x + 9223372036854775808) % 18446744073709551616 - 9223372036854775808

/-- Conversion of a uint64 value (a `Nat` already reduced mod 2^64) to
int64, as performed by Go's `int64(uncompressed)` cast. -/
def int64OfUInt64 (n : Nat) : Int :=
  if n < 9223372036854775808 then (n : Int) else (n : Int) - 18446744073709551616

/-- The `div, exp` loop of `FormatBytesSI`:
`for n := b / unit; n >= unit; n /= unit { div *= unit; exp++ }`.
Arguments: fuel, div, exp, m (the loop variable `n`).  Fuel equal to the
initial `m` is always sufficient because `m` shrinks by a factor of 1000
per iteration. -/
def siLoopF : Nat → Nat → Nat → Nat → Nat × Nat
  | 0, div, exp, _ => (div, exp)
  | fuel + 1, div, exp, m =>
    if m ≥ 1000 then siLoopF fuel (div * 1000) (exp + 1) (m / 1000)
    else (div, exp)

/-- The SI prefix table `"kMGTPE"[exp]` of `FormatBytesSI`.  Go panics on
an out-of-range index; that is unreachable for int64 inputs (exp ≤ 5), so
the fallback value is arbitrary. -/
def siPrefixChar : Nat → Char
  | 0 => 'k'
  | 1 => 'M'
  | 2 => 'G'
  | 3 => 'T'
  | 4 => 'P'
  | 5 => 'E'
  | _ => '?'

/-- Go's `%.1f` applied to `float64(n)/float64(div)` with `div > 0`,
modeled as exact rational division rounded to one fractional digit,
ties to even.  Every quotient reachable from the claims under
verification is exactly representable in binary floating point (and is
not a tie), so the model and float64 agree there. -/
def fmtOneDecimal (n div : Nat) : List Char :=
  let t := n * 10
  let q := t / div
  let r := t % div
  let q1 :=
    if 2 * r > div then q + 1
    else if 2 * r < div then q
    else if q % 2 = 1 then q + 1 else q
  natDecimal (q1 / 10) ++ ('.' :: [digitChar (q1 % 10)])

/-- Embedding of `internal.FormatBytesSI` (src/internal/util.go:36-56).
`b *= -1` is int64 multiplication and wraps, which is why the result can
stay negative for the minimum int64 value. -/
def formatBytesSI (b0 : Int) : List Char :=
  let neg : Bool := b0 < 0
  let b : Int := if b0 < 0 then int64Wrap (-b0) else b0
  if b < 1000 then intDecimal b ++ (' ' :: ['B'])
  else
    let n : Nat := b.toNat
    let de := siLoopF n 1000 0 (n / 1000)
    let digits := fmtOneDecimal n de.1
    if neg then '-' :: (digits ++ (' ' :: [siPrefixChar de.2, 'B']))
    else digits ++ (' ' :: [siPrefixChar de.2, 'B'])

/-- Go's `path.Split(name)`: splits after the final '/', returning
`(dir, file)`; `dir` keeps the trailing slash, and both halves are empty
or whole as in `strings.LastIndex` slicing. -/
def pathSplit : List Char → List Char × List Char
  | [] => ([], [])
  | c :: rest =>
    if '/' ∈ rest then ((c :: (pathSplit rest).1), (pathSplit rest).2)
    else if c = '/' then ([c], rest)
    else ([], c :: rest)

/-- Go's `strings.TrimRight(s, "/")`: removes every trailing '/'. -/
def trimRightSlash : List Char → List Char
  | [] => []
  | c :: rest =>
    if trimRightSlash rest = [] ∧ c = '/' then [] else c :: trimRightSlash rest

/-- The loop of `internal.MatchGlobParents` (src/internal/util.go:16-31),
parameterized by the host glob primitive `pm` (Go's `path.Match`, with
`Except.error ()` standing for a `path.ErrBadPattern` result).  Per
iteration: test the pattern against the whole remaining path; if it does
not match and the pattern is unanchored, test it against the basename;
then continue with the parent (trailing slashes trimmed) until the path
is exhausted.  The first argument is fuel: each iteration strictly
shrinks the path, so `name.length + 1` is always sufficient and the
zero-fuel fallback is unreachable. -/
def matchLoopF (fuel : Nat) (pm : List Char → List Char → Except Unit Bool)
    (pattern : List Char) (anchor : Bool) (name : List Char) : Except Unit Bool :=
  match fuel with
  | 0 => Except.ok false
  | fuel + 1 =>
    if name = [] then Except.ok false
    else
      match pm pattern name with
      | Except.error e => Except.error e
      | Except.ok true => Except.ok true
      | Except.ok false =>
        match (if anchor then Except.ok false else pm pattern (pathSplit name).2) with
        | Except.error e => Except.error e
        | Except.ok true => Except.ok true
        | Except.ok false =>
          matchLoopF fuel pm pattern anchor (trimRightSlash (pathSplit name).1)

/-- Embedding of `internal.MatchGlobParents` (src/internal/util.go:11-33):
a leading '/' anchors the pattern and is stripped before the loop. -/
def matchGlobParents (pm : List Char → List Char → Except Unit Bool)
    (pattern name : List Char) : Except Unit Bool :=
  if pattern.head? = some '/' then matchLoopF (name.length + 1) pm pattern.tail true name
  else matchLoopF (name.length + 1) pm pattern false name

/-- A pattern is well formed for the primitive `pm` when `pm` never
reports a syntax error on it, against any name. -/
def WellFormed (pm : List Char → List Char → Except Unit Bool)
    (pattern : List Char) : Prop :=
  ∀ name, ∃ b, pm pattern name = Except.ok b

/-- Whether a glob-primitive result is a successful match. -/
def isOkTrue : Except Unit Bool → Bool
  | Except.ok true => true
  | _ => false

/-- Joins path components with '/' (the inverse of splitting a clean
slash-separated path into its components). -/
def joinPath : List (List Char) → List Char
  | [] => []
  | [c] => c
  | c :: cs => c ++ ('/' :: joinPath cs)

/-- Whether the pattern matches some ancestor-prefix path of the path
with components `cs` (the joins of the first 1, 2, …, all components —
the last one being the path itself). -/
def anyAncestorFull (pm : List Char → List Char → Except Unit Bool)
    (pattern : List Char) (cs : List (List Char)) : Bool :=
  (List.range cs.length).any fun k => isOkTrue (pm pattern (joinPath (cs.take (k + 1))))

/-- Whether the pattern matches some component of the path taken as a
bare name (the path's basename or the basename of an ancestor). -/
def anyBase (pm : List Char → List Char → Except Unit Bool)
    (pattern : List Char) (cs : List (List Char)) : Bool :=
  cs.any fun c => isOkTrue (pm pattern c)

/-- A concrete glob primitive (exact equality) used to instantiate the
parametric theorems on concrete inputs. -/
def eqGlob (pattern name : List Char) : Except Unit Bool :=
  Except.ok (decide (pattern = name))

instance : DecidableEq (Except Unit Bool) := fun a b =>
  match a, b with
  | Except.error u, Except.error v => isTrue (by cases u; cases v; rfl)
  | Except.error _, Except.ok _ => isFalse (fun h => Except.noConfusion h)
  | Except.ok _, Except.error _ => isFalse (fun h => Except.noConfusion h)
  | Except.ok x, Except.ok y =>
    if hxy : x = y then isTrue (by rw [hxy])
    else isFalse (fun h => hxy (Except.ok.inj h))

/-- The exclude loop of the filter chain (src/cmd/tf2-vpkunpack/main.go:157-164):
every exclude pattern is evaluated; an error aborts (the code exits), a
match sets the flag to true, and evaluation continues with the next
pattern (no short-circuit). -/
def evalExcludes (pm : List Char → List Char → Except Unit Bool)
    (pats : List (List Char)) (p : List Char) (acc : Bool) : Except Unit Bool :=
  match pats with
  | [] => Except.ok acc
  | x :: xs =>
    match matchGlobParents pm x p with
    | Except.error e => Except.error e
    | Except.ok m => evalExcludes pm xs p (acc || m)

/-- The include loop of the filter chain (src/cmd/tf2-vpkunpack/main.go:165-172):
a match clears the flag; evaluation continues with the next pattern. -/
def evalIncludes (pm : List Char → List Char → Except Unit Bool)
    (pats : List (List Char)) (p : List Char) (acc : Bool) : Except Unit Bool :=
  match pats with
  | [] => Except.ok acc
  | x :: xs =>
    match matchGlobParents pm x p with
    | Except.error e => Except.error e
    | Except.ok m => evalIncludes pm xs p (acc && !m)

/-- The per-entry exclusion decision of src/cmd/tf2-vpkunpack/main.go:156-172:
run the exclude loop starting from `excluded = false`, then the include
loop on its result. -/
def isExcluded (pm : List Char → List Char → Except Unit Bool)
    (excl incl : List (List Char)) (p : List Char) : Except Unit Bool :=
  match evalExcludes pm excl p false with
  | Except.error e => Except.error e
  | Except.ok acc => evalIncludes pm incl p acc

/-- One chunk of an archive entry; only the uncompressed size (a uint64)
is consumed by the pipeline, for progress display. -/
structure VPKChunk where
  uncompressedSize : Nat

/-- One archive entry: its slash-separated relative path and its chunks.
`data` abstracts the decompressed byte stream that the external archive
reader collaborator (`r.OpenFileParallel`) delivers for this entry. -/
structure VPKFile where
  path : List Char
  chunk : List VPKChunk
  data : Nat

/-- Filesystem state visible to the pipeline: the set of directories and
the set of regular files (path paired with an abstract content tag).
`os.MkdirAll`'s creation of missing ancestors is collapsed into a single
directory record; the claims never inspect individual ancestors. -/
structure FS where
  dirs : List (List Char)
  files : List (List Char × Nat)

/-- Per-entry failure-injection oracle: `tempName` is the unique basename
`os.CreateTemp` picks inside the destination root, and each flag decides
whether the corresponding OS/reader call fails for this entry. -/
structure EntryEnv where
  tempName : List Char
  mkdirAllErr : Bool
  createTempErr : Bool
  openErr : Bool
  copyErr : Bool
  closeErr : Bool
  renameErr : Bool

/-- Outcome of processing one entry: continue with the next entry, or
abort the whole run (`os.Exit(1)`, which terminates the process so no
subsequent entry is processed). -/
inductive StepResult
  | next
  | fatal
deriving DecidableEq

/-- One progress line on standard output, modeled structurally. -/
inductive Line
  | excludedLine (idx total : Nat) (path : List Char)
  | extractLine (idx total : Nat) (path : List Char) (size : List Char)
deriving DecidableEq

/-- Result of processing one entry: the filesystem afterwards, the
increment of the excluded counter, the progress lines emitted, and
whether the run continues. -/
structure EntryResult where
  fs : FS
  excludedDelta : Nat
  lines : List Line
  outcome : StepResult

/-- `os.Remove(p)`: the file at `p` no longer exists afterwards (the code
ignores the error of this best-effort call, so the model makes it
succeed). -/
def removeFile (fs : FS) (p : List Char) : FS :=
  { fs with files := fs.files.filter fun e => !(decide (e.1 = p)) }

/-- Writing a regular file at `p` with content `d`, replacing any
previous file at `p` (used for `os.CreateTemp`, the `io.Copy` stream,
and the replacing POSIX `os.Rename` target). -/
def writeFile (fs : FS) (p : List Char) (d : Nat) : FS :=
  { fs with files := (p, d) :: fs.files.filter fun e => !(decide (e.1 = p)) }

/-- `os.MkdirAll(d)`: records the directory. -/
def addDir (fs : FS) (d : List Char) : FS :=
  { fs with dirs := d :: fs.dirs }

/-- Embedding of one iteration of the extraction loop
(src/cmd/tf2-vpkunpack/main.go:155-224).  Mirrors the source order:
filter evaluation (exit on pattern error); excluded entries only bump the
counter and print; otherwise compute the uint64 chunk-size sum, print the
progress line, `MkdirAll` the parent, `CreateTemp` inside the destination
root, open the parallel reader, `io.Copy`, `Close`, then `os.Rename` onto
the destination.  Failure handling is exactly the source's: the open,
copy and close failure paths call `os.Remove` on the temporary file; the
rename failure path does not.  `os.Rename` itself follows its documented
semantics: if the destination exists and is not a directory it is
replaced. -/
def processEntry (pm : List Char → List Char → Except Unit Bool)
    (excl incl : List (List Char)) (vpkOut : List Char)
    (idx total : Nat) (f : VPKFile) (env : EntryEnv) (fs : FS) : EntryResult :=
  match isExcluded pm excl incl f.path with
  | Except.error _ => ⟨fs, 0, [], StepResult.fatal⟩
  | Except.ok true => ⟨fs, 1, [Line.excludedLine (idx + 1) total f.path], StepResult.next⟩
  | Except.ok false =>
    let uncompressed : Nat :=
      (f.chunk.map VPKChunk.uncompressedSize).sum % 18446744073709551616
    let line := Line.extractLine (idx + 1) total f.path
      (formatBytesSI (int64OfUInt64 uncompressed))
    let outPath := vpkOut ++ ('/' :: f.path)
    if env.mkdirAllErr then ⟨fs, 0, [line], StepResult.fatal⟩
    else
      let fs1 := addDir fs (trimRightSlash (pathSplit outPath).1)
      if env.createTempErr then ⟨fs1, 0, [line], StepResult.fatal⟩
      else
        let tmpPath := vpkOut ++ ('/' :: env.tempName)
        let fs2 := writeFile fs1 tmpPath 0
        if env.openErr then ⟨removeFile fs2 tmpPath, 0, [line], StepResult.fatal⟩
        else if env.copyErr then ⟨removeFile fs2 tmpPath, 0, [line], StepResult.fatal⟩
        else
          let fs3 := writeFile fs2 tmpPath f.data
          if env.closeErr then ⟨removeFile fs3 tmpPath, 0, [line], StepResult.fatal⟩
          else if env.renameErr then ⟨fs3, 0, [line], StepResult.fatal⟩
          else ⟨writeFile (removeFile fs3 tmpPath) outPath f.data, 0, [line], StepResult.next⟩

theorem isOkTrue_ok (b : Bool) : isOkTrue (Except.ok b) = b := by
  cases b <;> rfl

theorem matchLoopF_nil (fuel : Nat) (pm : List Char → List Char → Except Unit Bool)
    (pattern : List Char) (anchor : Bool) :
    matchLoopF fuel pm pattern anchor [] = Except.ok false := by
  cases fuel <;> rfl

theorem listAnyCongr {α : Type} (l : List α) (f g : α → Bool)
    (h : ∀ x ∈ l, f x = g x) : l.any f = l.any g := by
  induction l with
  | nil => rfl
  | cons a l ih =>
    simp only [List.any_cons]
    rw [h a (by simp), ih (fun x hx => h x (by simp [hx]))]

theorem joinPath_cons (c : List Char) (cs : List (List Char)) (h : cs ≠ []) :
    joinPath (c :: cs) = c ++ ('/' :: joinPath cs) := by
  cases cs with
  | nil => exact absurd rfl h
  | cons d ds => rfl

theorem joinPath_append_one (ds : List (List Char)) (c : List Char) (h : ds ≠ []) :
    joinPath (ds ++ [c]) = joinPath ds ++ ('/' :: c) := by
  induction ds with
  | nil => exact absurd rfl h
  | cons d ds ih =>
    cases ds with
    | nil => rfl
    | cons e es =>
      rw [List.cons_append, joinPath_cons d ((e :: es) ++ [c]) (by simp),
        joinPath_cons d (e :: es) (by simp), ih (by simp)]
      simp

theorem pathSplit_no_slash (l : List Char) (h : '/' ∉ l) : pathSplit l = ([], l) := by
  cases l with
  | nil => rfl
  | cons c rest =>
    have h1 : '/' ∉ rest := fun hr => h (by simp [hr])
    have h2 : c ≠ '/' := fun hc => h (by simp [hc])
    simp [pathSplit, h1, h2]

theorem pathSplit_append (l c : List Char) (h : '/' ∉ c) :
    pathSplit (l ++ ('/' :: c)) = (l ++ ['/'], c) := by
  induction l with
  | nil => simp [pathSplit, h]
  | cons a l ih =>
    have hm : '/' ∈ (l ++ ('/' :: c)) := by simp
    simp [pathSplit, hm, ih]

theorem trimRightSlash_append_slash (l : List Char) :
    trimRightSlash (l ++ ['/']) = trimRightSlash l := by
  induction l with
  | nil => rfl
  | cons a l ih => simp only [List.cons_append, trimRightSlash, ih, List.append_eq]

theorem trimRightSlash_last_ne (l : List Char) (c : Char) (h : c ≠ '/') :
    trimRightSlash (l ++ [c]) = l ++ [c] := by
  induction l with
  | nil => simp [trimRightSlash, h]
  | cons a l ih => simp [trimRightSlash, ih]

theorem trimRightSlash_joinPath (cs : List (List Char)) (h : cs ≠ [])
    (hc : ∀ c ∈ cs, c ≠ [] ∧ '/' ∉ c) :
    trimRightSlash (joinPath cs) = joinPath cs := by
  rcases List.eq_nil_or_concat cs with h0 | ⟨ds, c, rfl⟩
  · exact absurd h0 h
  · rw [List.concat_eq_append]
    have hcc := hc c (by simp [List.concat_eq_append])
    rcases List.eq_nil_or_concat c with h1 | ⟨c0, ch, rfl⟩
    · exact absurd h1 hcc.1
    · rw [List.concat_eq_append] at hcc ⊢
      have hch : ch ≠ '/' := fun he => hcc.2 (by simp [he])
      rcases eq_or_ne ds [] with rfl | hds
      · simpa using trimRightSlash_last_ne c0 ch hch
      · rw [joinPath_append_one ds _ hds]
        have hassoc : joinPath ds ++ ('/' :: (c0 ++ [ch])) =
            (joinPath ds ++ ('/' :: c0)) ++ [ch] := by simp
        rw [hassoc, trimRightSlash_last_ne _ ch hch]

theorem anyBase_append (pm : List Char → List Char → Except Unit Bool)
    (pattern : List Char) (ds : List (List Char)) (c : List Char) :
    anyBase pm pattern (ds ++ [c]) = (anyBase pm pattern ds || isOkTrue (pm pattern c)) := by
  simp [anyBase]

theorem anyAncestorFull_append (pm : List Char → List Char → Except Unit Bool)
    (pattern : List Char) (ds : List (List Char)) (c : List Char) :
    anyAncestorFull pm pattern (ds ++ [c]) =
      (anyAncestorFull pm pattern ds || isOkTrue (pm pattern (joinPath (ds ++ [c])))) := by
  unfold anyAncestorFull
  have hlen : (ds ++ [c]).length = ds.length + 1 := by simp
  rw [hlen, List.range_succ, List.any_append]
  congr 1
  · apply listAnyCongr
    intro k hk
    have hk' : k + 1 ≤ ds.length := List.mem_range.mp hk
    rw [List.take_append_of_le_length hk']
  · have hta : (ds ++ [c]).take (ds.length + 1) = ds ++ [c] := by
      rw [← hlen, List.take_length]
    simp [hta]

theorem matchLoopF_clean (pm : List Char → List Char → Except Unit Bool)
    (pattern : List Char) (anchor : Bool) (cs : List (List Char)) :
    ∀ fuel : Nat, (joinPath cs).length < fuel →
      (∀ c ∈ cs, c ≠ [] ∧ '/' ∉ c) → WellFormed pm pattern →
      matchLoopF fuel pm pattern anchor (joinPath cs) =
        Except.ok (anyAncestorFull pm pattern cs || (!anchor && anyBase pm pattern cs)) := by
  induction cs using List.reverseRecOn with
  | nil =>
    intro fuel hf hc hw
    simp [joinPath, matchLoopF_nil, anyAncestorFull, anyBase]
  | append_singleton ds c ih =>
    intro fuel hf hc hw
    have hcc : c ≠ [] ∧ '/' ∉ c := hc c (by simp)
    obtain ⟨b, hb⟩ := hw (joinPath (ds ++ [c]))
    rcases eq_or_ne ds [] with rfl | hds
    · -- single-component path: the path is the component itself
      simp only [List.nil_append] at hb hf ⊢
      have hjc : joinPath [c] = c := rfl
      have hA : anyAncestorFull pm pattern [c] = isOkTrue (pm pattern c) := by
        simp [anyAncestorFull, List.range_succ, hjc]
      have hB : anyBase pm pattern [c] = isOkTrue (pm pattern c) := by
        simp [anyBase]
      rw [hjc] at hb hf ⊢
      cases fuel with
      | zero => exact absurd hf (by omega)
      | succ f =>
        cases b with
        | true => simp [matchLoopF, hcc.1, hb, hA, hB, isOkTrue_ok]
        | false =>
          cases anchor with
          | true =>
            simp [matchLoopF, hcc.1, hb, pathSplit_no_slash c hcc.2,
              trimRightSlash, matchLoopF_nil, hA, hB, isOkTrue_ok]
          | false =>
            simp [matchLoopF, hcc.1, hb, pathSplit_no_slash c hcc.2,
              trimRightSlash, matchLoopF_nil, hA, hB, isOkTrue_ok]
    · -- multi-component path
      have hJ := joinPath_append_one ds c hds
      have hrec : ∀ x ∈ ds, x ≠ [] ∧ '/' ∉ x := fun x hx => hc x (by simp [hx])
      cases fuel with
      | zero => exact absurd hf (by omega)
      | succ f =>
        have hflt : (joinPath ds).length < f := by
          rw [hJ] at hf
          simp only [List.length_append, List.length_cons] at hf
          omega
        have hih := ih f hflt hrec hw
        have hps := pathSplit_append (joinPath ds) c hcc.2
        have htr : trimRightSlash (joinPath ds ++ ['/']) = joinPath ds := by
          rw [trimRightSlash_append_slash, trimRightSlash_joinPath ds hds hrec]
        obtain ⟨b2, hb2⟩ := hw c
        rw [anyAncestorFull_append, anyBase_append, hb]
        rw [hJ] at hb ⊢
        have hne : joinPath ds ++ ('/' :: c) ≠ [] := by simp
        cases b with
        | true => simp [matchLoopF, hne, hb, isOkTrue_ok]
        | false =>
          cases anchor with
          | true =>
            simp only [matchLoopF, if_neg hne, hb, hps, htr, hih, if_true]
            simp [isOkTrue_ok]
          | false =>
            cases b2 with
            | true =>
              simp only [matchLoopF, if_neg hne, hb, hps, hb2, if_false]
              simp [hb2, isOkTrue_ok]
            | false =>
              simp only [matchLoopF, if_neg hne, hb, hps, hb2, htr, hih, if_false]
              simp [hb2, isOkTrue_ok]

/-- C10: for the empty path the matching loop never executes, so the
result is a successful non-match for every pattern and every behavior of
the glob primitive — in particular also for syntactically invalid
patterns, whose error is never reported against the empty path. -/
theorem matchGlobParents_emptyPath (pm : List Char → List Char → Except Unit Bool)
    (pattern : List Char) :
    matchGlobParents pm pattern [] = Except.ok false := by
  unfold matchGlobParents
  rcases h : pattern.head? with _ | c
  · simp [matchLoopF_nil]
  · by_cases hc : pattern.head? = some '/' <;> simp [hc, matchLoopF_nil]

/-- C5: for a clean slash-separated path given by its non-empty,
slash-free components `cs` and a well-formed unanchored pattern (no
leading '/'), `MatchGlobParents` returns true exactly when the pattern
glob-matches some ancestor-prefix path (including the path itself) or
some component taken as a bare basename (the path's basename or an
ancestor directory's basename), and false when none of these match. -/
theorem matchGlobParents_unanchored (pm : List Char → List Char → Except Unit Bool)
    (pattern : List Char) (cs : List (List Char))
    (hu : pattern.head? ≠ some '/')
    (hw : WellFormed pm pattern)
    (hc : ∀ c ∈ cs, c ≠ [] ∧ '/' ∉ c) :
    matchGlobParents pm pattern (joinPath cs) =
      Except.ok (anyAncestorFull pm pattern cs || anyBase pm pattern cs) := by
  have h := matchLoopF_clean pm pattern false cs ((joinPath cs).length + 1)
    (by omega) hc hw
  unfold matchGlobParents
  rw [if_neg hu]
  simpa using h

theorem matchGlobParents_unanchored_inst :
    matchGlobParents eqGlob ['b'] (joinPath [['a'], ['b']]) =
      Except.ok (anyAncestorFull eqGlob ['b'] [['a'], ['b']] ||
        anyBase eqGlob ['b'] [['a'], ['b']]) := by
  exact matchGlobParents_unanchored eqGlob ['b'] [['a'], ['b']]
    (by decide) (fun name => ⟨decide (['b'] = name), rfl⟩) (by decide)

/-- C6: for a clean slash-separated path given by its components `cs` and
a well-formed anchored pattern (written with a leading '/'),
`MatchGlobParents` returns true exactly when the pattern with its leading
separator stripped glob-matches the full path or some ancestor-prefix of
it; no bare basename is ever tested. -/
theorem matchGlobParents_anchored (pm : List Char → List Char → Except Unit Bool)
    (rest : List Char) (cs : List (List Char))
    (hw : WellFormed pm rest)
    (hc : ∀ c ∈ cs, c ≠ [] ∧ '/' ∉ c) :
    matchGlobParents pm ('/' :: rest) (joinPath cs) =
      Except.ok (anyAncestorFull pm rest cs) := by
  have h := matchLoopF_clean pm rest true cs ((joinPath cs).length + 1)
    (by omega) hc hw
  unfold matchGlobParents
  rw [if_pos (show ('/' :: rest).head? = some '/' from rfl)]
  simpa using h

theorem matchGlobParents_anchored_inst :
    matchGlobParents eqGlob ('/' :: ['a']) (joinPath [['a'], ['b']]) =
      Except.ok (anyAncestorFull eqGlob ['a'] [['a'], ['b']]) := by
  exact matchGlobParents_anchored eqGlob ['a'] [['a'], ['b']]
    (fun name => ⟨decide (['a'] = name), rfl⟩) (by decide)

theorem evalExcludes_eq (pm : List Char → List Char → Except Unit Bool)
    (p : List Char) :
    ∀ (pats : List (List Char)) (acc : Bool),
      (∀ x ∈ pats, ∃ b, matchGlobParents pm x p = Except.ok b) →
      evalExcludes pm pats p acc =
        Except.ok (acc || pats.any fun x => isOkTrue (matchGlobParents pm x p)) := by
  intro pats
  induction pats with
  | nil => intro acc h; simp [evalExcludes]
  | cons x xs ih =>
    intro acc h
    obtain ⟨b, hb⟩ := h x (by simp)
    simp only [evalExcludes, hb]
    rw [ih (acc || b) (fun y hy => h y (by simp [hy]))]
    simp [hb, isOkTrue_ok, Bool.or_assoc]

theorem evalIncludes_eq (pm : List Char → List Char → Except Unit Bool)
    (p : List Char) :
    ∀ (pats : List (List Char)) (acc : Bool),
      (∀ x ∈ pats, ∃ b, matchGlobParents pm x p = Except.ok b) →
      evalIncludes pm pats p acc =
        Except.ok (acc && !(pats.any fun x => isOkTrue (matchGlobParents pm x p))) := by
  intro pats
  induction pats with
  | nil => intro acc h; simp [evalIncludes]
  | cons x xs ih =>
    intro acc h
    obtain ⟨b, hb⟩ := h x (by simp)
    simp only [evalIncludes, hb]
    rw [ih (acc && !b) (fun y hy => h y (by simp [hy]))]
    simp [hb, isOkTrue_ok, Bool.and_assoc]

theorem any_eq_decide {α : Type} (l : List α) (f : α → Bool) :
    l.any f = decide (∃ x ∈ l, f x = true) := by
  rw [Bool.eq_iff_iff]
  simp [List.any_eq_true]

/-- C4: the exclusion decision is exactly "some exclude pattern matches
AND no include pattern matches"; the right-hand side depends only on
which patterns are in each list (membership), so it is invariant under
reordering either list, and an entry matching no exclude pattern is
never excluded regardless of the include list. -/
theorem isExcluded_membership (pm : List Char → List Char → Except Unit Bool)
    (excl incl : List (List Char)) (p : List Char)
    (hx : ∀ x ∈ excl, ∃ b, matchGlobParents pm x p = Except.ok b)
    (hi : ∀ x ∈ incl, ∃ b, matchGlobParents pm x p = Except.ok b) :
    isExcluded pm excl incl p =
      Except.ok (decide (∃ x ∈ excl, isOkTrue (matchGlobParents pm x p) = true) &&
        !(decide (∃ x ∈ incl, isOkTrue (matchGlobParents pm x p) = true))) := by
  rw [isExcluded, evalExcludes_eq pm p excl false hx]
  show evalIncludes pm incl p
    (false || excl.any fun x => isOkTrue (matchGlobParents pm x p)) = _
  rw [evalIncludes_eq pm p incl _ hi, Bool.false_or, any_eq_decide, any_eq_decide]

theorem isExcluded_membership_inst :
    isExcluded eqGlob [['a']] [] ['a'] =
      Except.ok (decide (∃ x ∈ [['a']], isOkTrue (matchGlobParents eqGlob x ['a']) = true) &&
        !(decide (∃ x ∈ ([] : List (List Char)),
          isOkTrue (matchGlobParents eqGlob x ['a']) = true))) := by
  exact isExcluded_membership eqGlob [['a']] [] ['a']
    (by intro x hx; rw [List.mem_singleton] at hx; subst hx; exact ⟨true, by decide⟩)
    (by intro x hx; exact absurd hx (List.not_mem_nil x))

/-- C7: the five example values of the specification evaluate as stated. -/
theorem formatBytesSI_examples :
    formatBytesSI 0 = ['0', ' ', 'B'] ∧
    formatBytesSI 999 = ['9', '9', '9', ' ', 'B'] ∧
    formatBytesSI 1000 = ['1', '.', '0', ' ', 'k', 'B'] ∧
    formatBytesSI 1500000 = ['1', '.', '5', ' ', 'M', 'B'] ∧
    formatBytesSI (-2000) = ['-', '2', '.', '0', ' ', 'k', 'B'] := by
  decide

/-- C2 (code bug): for −1000 < n < 0 the code drops the sign.  The `neg`
flag is computed but never applied in the `b < unit` branch, so
`FormatBytesSI(-500)` returns "500 B" instead of the documented
"-500 B". -/
theorem formatBytesSI_neg500 :
    formatBytesSI (-500) = ['5', '0', '0', ' ', 'B'] := by
  decide

/-- C9: for the minimum int64 value, `b *= -1` wraps back to the same
negative value, so the function prints the raw negative number with a
" B" suffix and applies no SI scaling. -/
theorem formatBytesSI_minInt64 :
    int64Wrap 9223372036854775808 = -9223372036854775808 ∧
    formatBytesSI (-9223372036854775808) =
      ['-', '9', '2', '2', '3', '3', '7', '2', '0', '3', '6', '8', '5', '4',
       '7', '7', '5', '8', '0', '8', ' ', 'B'] := by
  decide

theorem filter_ne_of_fresh (l : List (List Char × Nat)) (p : List Char)
    (h : ∀ d, (p, d) ∉ l) :
    (l.filter fun e => !(decide (e.1 = p))) = l := by
  apply List.filter_eq_self.mpr
  intro e he
  have hep : e.1 ≠ p := by
    intro hep
    exact h e.2 (by rw [← hep]; simpa using he)
  simp [hep]

/-- C8: an entry the filter chain decides to exclude causes no filesystem
change at all (no directory, no temporary file, no rename), bumps only
the excluded counter, emits exactly one progress line, and the run
continues with the next entry. -/
theorem processEntry_excludedEntry (pm : List Char → List Char → Except Unit Bool)
    (excl incl : List (List Char)) (vpkOut : List Char) (idx total : Nat)
    (f : VPKFile) (env : EntryEnv) (fs : FS)
    (hx : isExcluded pm excl incl f.path = Except.ok true) :
    processEntry pm excl incl vpkOut idx total f env fs =
      ⟨fs, 1, [Line.excludedLine (idx + 1) total f.path], StepResult.next⟩ := by
  simp only [processEntry, hx]

theorem processEntry_excludedEntry_inst :
    processEntry eqGlob [['a']] [] ['o'] 0 3 ⟨['a'], [], 0⟩
      ⟨['t'], false, false, false, false, false, false⟩ ⟨[], []⟩ =
      ⟨⟨[], []⟩, 1, [Line.excludedLine 1 3 ['a']], StepResult.next⟩ := by
  exact processEntry_excludedEntry eqGlob [['a']] [] ['o'] 0 3 ⟨['a'], [], 0⟩
    ⟨['t'], false, false, false, false, false, false⟩ ⟨[], []⟩ (by decide)

/-- C1 (counterexample): with a rename failure injected after a
successful copy and close, the run aborts but the temporary file is NOT
removed — it remains in the destination root, contradicting the claim
that any failure in steps 3-7 removes the temporary file.  The source's
rename-failure path (main.go:218-221) has no `os.Remove` call, unlike
the open/copy/close failure paths. -/
theorem processEntry_renameFail_tempRemains :
    (processEntry eqGlob [] [] ['o'] 0 1 ⟨['a'], [], 5⟩
      ⟨['t'], false, false, false, false, false, true⟩ ⟨[], []⟩).outcome =
      StepResult.fatal ∧
    (processEntry eqGlob [] [] ['o'] 0 1 ⟨['a'], [], 5⟩
      ⟨['t'], false, false, false, false, false, true⟩ ⟨[], []⟩).fs.files =
      [(['o', '/', 't'], 5)] := by
  decide

/-- C1 (amended): for a retained entry, a failure while opening the
archive reader, streaming the bytes, or closing the temporary file
removes the temporary file and aborts the run, leaving the file set
unchanged (in particular the destination path does not exist and no
temporary file remains); a failure of the final rename also aborts the
run and leaves the destination path nonexistent, but the temporary file
is left behind in the destination root. -/
theorem processEntry_failAfterTemp (pm : List Char → List Char → Except Unit Bool)
    (excl incl : List (List Char)) (vpkOut : List Char) (idx total : Nat)
    (f : VPKFile) (env : EntryEnv) (fs : FS)
    (hkeep : isExcluded pm excl incl f.path = Except.ok false)
    (hm : env.mkdirAllErr = false)
    (hct : env.createTempErr = false)
    (hfail : env.openErr = true ∨ env.copyErr = true ∨ env.closeErr = true ∨
      env.renameErr = true)
    (hfresh : ∀ d, (vpkOut ++ ('/' :: env.tempName), d) ∉ fs.files)
    (hdest : ∀ d, (vpkOut ++ ('/' :: f.path), d) ∉ fs.files)
    (hne : f.path ≠ env.tempName) :
    (processEntry pm excl incl vpkOut idx total f env fs).outcome = StepResult.fatal ∧
    (∀ d, (vpkOut ++ ('/' :: f.path), d) ∉
      (processEntry pm excl incl vpkOut idx total f env fs).fs.files) ∧
    (env.openErr = true ∨ env.copyErr = true ∨ env.closeErr = true →
      (processEntry pm excl incl vpkOut idx total f env fs).fs.files = fs.files) ∧
    (env.openErr = false → env.copyErr = false → env.closeErr = false →
      env.renameErr = true →
      (processEntry pm excl incl vpkOut idx total f env fs).fs.files =
        (vpkOut ++ ('/' :: env.tempName), f.data) :: fs.files) := by
  have hW := filter_ne_of_fresh fs.files (vpkOut ++ ('/' :: env.tempName)) hfresh
  have hdt : vpkOut ++ ('/' :: f.path) ≠ vpkOut ++ ('/' :: env.tempName) := by
    intro he
    have h2 := List.append_cancel_left he
    injection h2 with h4 h5
    exact hne h5
  cases ho : env.openErr with
  | true =>
    have hfiles : (processEntry pm excl incl vpkOut idx total f env fs).fs.files =
        fs.files := by
      simp [processEntry, hkeep, hm, hct, ho, removeFile, writeFile, addDir,
        List.filter_cons, hW]
    refine ⟨?_, fun d => hfiles ▸ hdest d, fun _ => hfiles, ?_⟩
    · simp [processEntry, hkeep, hm, hct, ho]
    · intro hno _ _ _
      exact absurd hno (by decide)
  | false =>
    cases hcp : env.copyErr with
    | true =>
      have hfiles : (processEntry pm excl incl vpkOut idx total f env fs).fs.files =
          fs.files := by
        simp [processEntry, hkeep, hm, hct, ho, hcp, removeFile, writeFile, addDir,
          List.filter_cons, hW]
      refine ⟨?_, fun d => hfiles ▸ hdest d, fun _ => hfiles, ?_⟩
      · simp [processEntry, hkeep, hm, hct, ho, hcp]
      · intro _ hno _ _
        exact absurd hno (by decide)
    | false =>
      cases hcl : env.closeErr with
      | true =>
        have hfiles : (processEntry pm excl incl vpkOut idx total f env fs).fs.files =
            fs.files := by
          simp [processEntry, hkeep, hm, hct, ho, hcp, hcl, removeFile, writeFile,
            addDir, List.filter_cons, hW]
        refine ⟨?_, fun d => hfiles ▸ hdest d, fun _ => hfiles, ?_⟩
        · simp [processEntry, hkeep, hm, hct, ho, hcp, hcl]
        · intro _ _ hno _
          exact absurd hno (by decide)
      | false =>
        have hrn : env.renameErr = true := by
          rcases hfail with h | h | h | h
          · exact absurd (ho.symm.trans h) (by decide)
          · exact absurd (hcp.symm.trans h) (by decide)
          · exact absurd (hcl.symm.trans h) (by decide)
          · exact h
        have hfiles : (processEntry pm excl incl vpkOut idx total f env fs).fs.files =
            (vpkOut ++ ('/' :: env.tempName), f.data) :: fs.files := by
          simp [processEntry, hkeep, hm, hct, ho, hcp, hcl, hrn, removeFile,
            writeFile, addDir, List.filter_cons, hW]
        refine ⟨?_, ?_, ?_, fun _ _ _ _ => hfiles⟩
        · simp [processEntry, hkeep, hm, hct, ho, hcp, hcl, hrn]
        · intro d hd
          rw [hfiles] at hd
          rcases List.mem_cons.mp hd with h1 | h1
          · exact hdt (congrArg Prod.fst h1)
          · exact hdest d h1
        · intro h3
          rcases h3 with h | h | h <;> exact absurd h (by decide)

theorem processEntry_failAfterTemp_inst :
    (processEntry eqGlob [] [] ['o'] 0 1 ⟨['a'], [], 5⟩
      ⟨['t'], false, false, true, false, false, false⟩ ⟨[], []⟩).outcome =
      StepResult.fatal := by
  exact (processEntry_failAfterTemp eqGlob [] [] ['o'] 0 1 ⟨['a'], [], 5⟩
    ⟨['t'], false, false, true, false, false, false⟩ ⟨[], []⟩
    (by decide) rfl rfl (Or.inl rfl)
    (fun d => List.not_mem_nil _) (fun d => List.not_mem_nil _) (by decide)).1

/-- C3 (counterexample): when the destination path already exists as a
file at rename time, the rename succeeds (no error is reported) and the
pre-existing file is silently replaced by the extracted content — the
run completes normally.  This contradicts the claim that a pre-existing
file is reported as an error: the code calls `os.Rename`, whose
documented behavior replaces an existing destination file. -/
theorem processEntry_overwriteNoError :
    (processEntry eqGlob [] [] ['o'] 0 1 ⟨['a'], [], 9⟩
      ⟨['t'], false, false, false, false, false, false⟩
      ⟨[], [(['o', '/', 'a'], 7)]⟩).outcome = StepResult.next ∧
    (processEntry eqGlob [] [] ['o'] 0 1 ⟨['a'], [], 9⟩
      ⟨['t'], false, false, false, false, false, false⟩
      ⟨[], [(['o', '/', 'a'], 7)]⟩).fs.files = [(['o', '/', 'a'], 9)] := by
  decide

/-- C3 (amended): at rename time the code performs no existence check:
if the destination path already exists as a file it is silently replaced
by the temporary file's content and the run continues without error;
only the pre-run destination-emptiness precondition protects against
overwriting. -/
theorem processEntry_renameReplacesExisting (pm : List Char → List Char → Except Unit Bool)
    (excl incl : List (List Char)) (vpkOut : List Char) (idx total : Nat)
    (f : VPKFile) (env : EntryEnv) (fs : FS) (d0 : Nat)
    (hkeep : isExcluded pm excl incl f.path = Except.ok false)
    (hm : env.mkdirAllErr = false) (hct : env.createTempErr = false)
    (ho : env.openErr = false) (hcp : env.copyErr = false)
    (hcl : env.closeErr = false) (hrn : env.renameErr = false)
    (hfresh : ∀ d, (vpkOut ++ ('/' :: env.tempName), d) ∉ fs.files)
    (hpre : (vpkOut ++ ('/' :: f.path), d0) ∈ fs.files) :
    (processEntry pm excl incl vpkOut idx total f env fs).outcome = StepResult.next ∧
    (∀ d, (vpkOut ++ ('/' :: f.path), d) ∈
      (processEntry pm excl incl vpkOut idx total f env fs).fs.files ↔ d = f.data) ∧
    (d0 ≠ f.data → (vpkOut ++ ('/' :: f.path), d0) ∉
      (processEntry pm excl incl vpkOut idx total f env fs).fs.files) := by
  have hW := filter_ne_of_fresh fs.files (vpkOut ++ ('/' :: env.tempName)) hfresh
  have hfiles : (processEntry pm excl incl vpkOut idx total f env fs).fs.files =
      (vpkOut ++ ('/' :: f.path), f.data) ::
        (fs.files.filter fun e => !(decide (e.1 = vpkOut ++ ('/' :: f.path)))) := by
    simp [processEntry, hkeep, hm, hct, ho, hcp, hcl, hrn, removeFile, writeFile,
      addDir, List.filter_cons, hW]
  have hmem : ∀ d, (vpkOut ++ ('/' :: f.path), d) ∈
      (processEntry pm excl incl vpkOut idx total f env fs).fs.files ↔ d = f.data := by
    intro d
    rw [hfiles]
    constructor
    · intro hd
      rcases List.mem_cons.mp hd with h1 | h1
      · exact (Prod.ext_iff.mp h1).2
      · have h2 := List.mem_filter.mp h1
        simp at h2
    · intro hd
      rw [hd]
      exact List.mem_cons_self _ _
  refine ⟨?_, hmem, ?_⟩
  · simp [processEntry, hkeep, hm, hct, ho, hcp, hcl, hrn]
  · intro hd0 hmem0
    exact hd0 ((hmem d0).mp hmem0)

theorem processEntry_renameReplacesExisting_inst :
    (processEntry eqGlob [] [] ['o'] 0 1 ⟨['a'], [], 9⟩
      ⟨['t'], false, false, false, false, false, false⟩
      ⟨[], [(['o', '/', 'a'], 7)]⟩).outcome = StepResult.next := by
  exact (processEntry_renameReplacesExisting eqGlob [] [] ['o'] 0 1 ⟨['a'], [], 9⟩
    ⟨['t'], false, false, false, false, false, false⟩ ⟨[], [(['o', '/', 'a'], 7)]⟩ 7
    (by decide) rfl rfl rfl rfl rfl rfl
    (fun d => by simp) (by simp)).1

end Vpk
